import Mathlib

/-!
Verification of the Log20-Go cyclomatic-complexity tool (`log20.go`) against
its natural-language specification.

The Go program parses Go source files, computes a cyclomatic complexity for
every top-level function or method declaration (`complexity` /
`complexityVisitor.Visit`), names it (`funcName` / `recvString`), assigns a
globally increasing record ID (`buildBasicBlocks` with the shared `count`
counter), sorts the records (`sort.Sort(byComplexity(...))`), writes a report
with top-N and threshold filtering (`writeBasicBlocks`), optionally prints the
average complexity (`showAverage` / `average`), and decides the process exit
status (`main`, `usage`, `log.Fatal` inside `analyzeFile`).

The definitions below are a shallow embedding of that code.  Go's `go/ast`
node kinds are modelled by the mutually inductive `Node` / `NodeList`; only
the shapes inspected by the program are distinguished, every other node kind
is `exprOther` with its child list.  Machine integers are modelled by `Nat`
and `Int` (no counter in the program can overflow on inputs of interest, and
the program performs no wrapping arithmetic).  `float64` division in
`average` is modelled over `ℚ`; the one place Go's floating point differs
(0/0 = NaN versus 0 in `ℚ`) is noted at the definition.
-/

namespace Log20

/-- Binary operator token of a `*ast.BinaryExpr`; `complexityVisitor.Visit`
only distinguishes `token.LAND`, `token.LOR` from everything else. -/
inductive BinOp where
  | land
  | lor
  | other
  deriving DecidableEq

mutual

/-- Go syntax-tree nodes, as inspected by `complexityVisitor.Visit` and
`recvString`: `if`, `for`, `range`, `case` arms, `select` communication arms,
binary expressions, call expressions, function literals (closures),
identifiers, star (pointer) expressions, and a catch-all `exprOther` for
every other node kind.  Children are the nodes `ast.Walk` descends into. -/
inductive Node where
  | ifStmt (children : NodeList)
  | forStmt (children : NodeList)
  | rangeStmt (children : NodeList)
  | caseClause (children : NodeList)
  | commClause (children : NodeList)
  | binaryExpr (op : BinOp) (x y : Node)
  | callExpr (func : Node) (args : NodeList)
  | funcLit (body : NodeList)
  | ident (name : String)
  | starExpr (x : Node)
  | exprOther (children : NodeList)

/-- A list of sibling nodes (explicit, so that `Node` is a plain mutual
inductive rather than a nested one). -/
inductive NodeList where
  | nil
  | cons (head : Node) (tail : NodeList)

end

/-- An `*ast.FuncDecl`: its name, the optional receiver field list (each
field contributing its declared type expression, in order), the body
statements, and the rendered source positions `fset.Position(fn.Pos())` /
`fset.Position(fn.End())` carried as opaque strings. -/
structure FuncDecl where
  name : String
  recv : Option NodeList
  body : NodeList
  pos : String
  endPos : String

/-- The receiver type nodes `ast.Walk` visits below a `FuncDecl` (empty when
`fn.Recv == nil`). -/
def recvNodes (fn : FuncDecl) : NodeList :=
  match fn.recv with
  | some fl => fl
  | none => NodeList.nil

/-- State of one `complexityVisitor` run: the `Complexity` counter plus the
sequence of values written to stdout by the `fmt.Printf` in the
`*ast.CallExpr` arm of `Visit` (the printed operand is `n.Fun`). -/
structure VisitorState where
  complexity : Nat
  out : List Node

mutual

/-- `ast.Walk(v, n)` for the `complexityVisitor`: pre-order traversal, at
each node performing exactly what `complexityVisitor.Visit` does — increment
`Complexity` for `*ast.IfStmt`, `*ast.ForStmt`, `*ast.RangeStmt`,
`*ast.CaseClause`, `*ast.CommClause`, and for `*ast.BinaryExpr` whose `Op`
is `token.LAND` or `token.LOR`; print `n.Fun` for `*ast.CallExpr`; do
nothing for any other node (in particular `*ast.FuncLit` is not counted,
though its body is still traversed). -/
def walkNode : VisitorState → Node → VisitorState
  | s, Node.ifStmt cs => walkList ⟨s.complexity + 1, s.out⟩ cs
  | s, Node.forStmt cs => walkList ⟨s.complexity + 1, s.out⟩ cs
  | s, Node.rangeStmt cs => walkList ⟨s.complexity + 1, s.out⟩ cs
  | s, Node.caseClause cs => walkList ⟨s.complexity + 1, s.out⟩ cs
  | s, Node.commClause cs => walkList ⟨s.complexity + 1, s.out⟩ cs
  | s, Node.binaryExpr op x y =>
      walkNode (walkNode (if op = BinOp.land ∨ op = BinOp.lor then
        ⟨s.complexity + 1, s.out⟩ else s) x) y
  | s, Node.callExpr f args => walkList (walkNode ⟨s.complexity, s.out ++ [f]⟩ f) args
  | s, Node.funcLit cs => walkList s cs
  | s, Node.ident _ => s
  | s, Node.starExpr x => walkNode s x
  | s, Node.exprOther cs => walkList s cs

/-- `ast.Walk` over a list of sibling nodes, left to right. -/
def walkList : VisitorState → NodeList → VisitorState
  | s, NodeList.nil => s
  | s, NodeList.cons n ns => walkList (walkNode s n) ns

end

/-- One full run of `complexity(fn)`: a fresh zero-valued visitor, then
`ast.Walk(&v, fn)`.  Visiting the `*ast.FuncDecl` root itself increments the
counter once (the `*ast.FuncDecl` arm of `Visit`), after which the walk
descends into the receiver field types and the body. -/
def complexityRun (fn : FuncDecl) : VisitorState :=
  walkList (walkList ⟨1, []⟩ (recvNodes fn)) fn.body

/-- `complexity(fn)` — the integer the Go function returns. -/
def complexity (fn : FuncDecl) : Nat :=
  (complexityRun fn).complexity

/-- The stdout writes performed during `complexity(fn)` by the debug
`fmt.Printf` in `Visit` (one entry per call expression, carrying its `Fun`
operand). -/
def complexityOut (fn : FuncDecl) : List Node :=
  (complexityRun fn).out

/-- The increment `complexityVisitor.Visit` applies at one node. -/
def visitWeight : Node → Nat
  | Node.ifStmt _ => 1
  | Node.forStmt _ => 1
  | Node.rangeStmt _ => 1
  | Node.caseClause _ => 1
  | Node.commClause _ => 1
  | Node.binaryExpr op _ _ => if op = BinOp.land ∨ op = BinOp.lor then 1 else 0
  | _ => 0

mutual

/-- Sum of a per-node weight over a whole subtree (spec-side counter, an
independent structural recursion over the tree). -/
def countNode (w : Node → Nat) : Node → Nat
  | n@(Node.ifStmt cs) => w n + countList w cs
  | n@(Node.forStmt cs) => w n + countList w cs
  | n@(Node.rangeStmt cs) => w n + countList w cs
  | n@(Node.caseClause cs) => w n + countList w cs
  | n@(Node.commClause cs) => w n + countList w cs
  | n@(Node.binaryExpr _ x y) => w n + countNode w x + countNode w y
  | n@(Node.callExpr f args) => w n + countNode w f + countList w args
  | n@(Node.funcLit cs) => w n + countList w cs
  | n@(Node.ident _) => w n
  | n@(Node.starExpr x) => w n + countNode w x
  | n@(Node.exprOther cs) => w n + countList w cs

/-- Sum of a per-node weight over a list of subtrees. -/
def countList (w : Node → Nat) : NodeList → Nat
  | NodeList.nil => 0
  | NodeList.cons n ns => countNode w n + countList w ns

end

mutual

/-- The `Fun` operands of all call expressions in a subtree, in the order
`ast.Walk` visits them (spec-side collector). -/
def collectNode : Node → List Node
  | Node.ifStmt cs => collectList cs
  | Node.forStmt cs => collectList cs
  | Node.rangeStmt cs => collectList cs
  | Node.caseClause cs => collectList cs
  | Node.commClause cs => collectList cs
  | Node.binaryExpr _ x y => collectNode x ++ collectNode y
  | Node.callExpr f args => f :: (collectNode f ++ collectList args)
  | Node.funcLit cs => collectList cs
  | Node.ident _ => []
  | Node.starExpr x => collectNode x
  | Node.exprOther cs => collectList cs

/-- Call-operand collection over a list of subtrees. -/
def collectList : NodeList → List Node
  | NodeList.nil => []
  | NodeList.cons n ns => collectNode n ++ collectList ns

end

/-- Weight 1 on `if` statements. -/
def isIf : Node → Nat
  | Node.ifStmt _ => 1
  | _ => 0

/-- Weight 1 on `for` and `range` loop statements. -/
def isLoop : Node → Nat
  | Node.forStmt _ => 1
  | Node.rangeStmt _ => 1
  | _ => 0

/-- Weight 1 on `switch` case arms and `select` communication arms. -/
def isBranchArm : Node → Nat
  | Node.caseClause _ => 1
  | Node.commClause _ => 1
  | _ => 0

/-- Weight 1 on short-circuit `&&` / `||` binary operators. -/
def isShortCircuit : Node → Nat
  | Node.binaryExpr op _ _ => if op = BinOp.land ∨ op = BinOp.lor then 1 else 0
  | _ => 0

/-- Sum of a per-node weight over everything below a declaration (its
receiver field types and its body). -/
def declCount (w : Node → Nat) (fn : FuncDecl) : Nat :=
  countList w (recvNodes fn) + countList w fn.body

/-- Call-operand collection over everything below a declaration. -/
def declCollect (fn : FuncDecl) : List Node :=
  collectList (recvNodes fn) ++ collectList fn.body

mutual

theorem walkNode_eq (s : VisitorState) (n : Node) :
    walkNode s n = ⟨s.complexity + countNode visitWeight n, s.out ++ collectNode n⟩ := by
  cases n with
  | ifStmt cs =>
      simp [walkNode, countNode, collectNode, visitWeight, walkList_eq, Nat.add_assoc,
        Nat.add_comm 1]
  | forStmt cs =>
      simp [walkNode, countNode, collectNode, visitWeight, walkList_eq, Nat.add_assoc,
        Nat.add_comm 1]
  | rangeStmt cs =>
      simp [walkNode, countNode, collectNode, visitWeight, walkList_eq, Nat.add_assoc,
        Nat.add_comm 1]
  | caseClause cs =>
      simp [walkNode, countNode, collectNode, visitWeight, walkList_eq, Nat.add_assoc,
        Nat.add_comm 1]
  | commClause cs =>
      simp [walkNode, countNode, collectNode, visitWeight, walkList_eq, Nat.add_assoc,
        Nat.add_comm 1]
  | binaryExpr op x y =>
      by_cases h : op = BinOp.land ∨ op = BinOp.lor
      · simp [walkNode, countNode, collectNode, visitWeight, h, walkNode_eq]
        omega
      · simp [walkNode, countNode, collectNode, visitWeight, h, walkNode_eq, Nat.add_assoc]
  | callExpr f args =>
      simp [walkNode, countNode, collectNode, visitWeight, walkNode_eq, walkList_eq,
        Nat.add_assoc]
  | funcLit cs =>
      simp [walkNode, countNode, collectNode, visitWeight, walkList_eq]
  | ident name =>
      simp [walkNode, countNode, collectNode, visitWeight]
  | starExpr x =>
      simp [walkNode, countNode, collectNode, visitWeight, walkNode_eq]
  | exprOther cs =>
      simp [walkNode, countNode, collectNode, visitWeight, walkList_eq]

theorem walkList_eq (s : VisitorState) (ns : NodeList) :
    walkList s ns = ⟨s.complexity + countList visitWeight ns, s.out ++ collectList ns⟩ := by
  cases ns with
  | nil => simp [walkList, countList, collectList]
  | cons n ns =>
      simp [walkList, countList, collectList, walkNode_eq, walkList_eq, Nat.add_assoc]

end

mutual

theorem countNode_add (w1 w2 : Node → Nat) (n : Node) :
    countNode (fun m => w1 m + w2 m) n = countNode w1 n + countNode w2 n := by
  cases n with
  | ifStmt cs => simp [countNode, countList_add]; omega
  | forStmt cs => simp [countNode, countList_add]; omega
  | rangeStmt cs => simp [countNode, countList_add]; omega
  | caseClause cs => simp [countNode, countList_add]; omega
  | commClause cs => simp [countNode, countList_add]; omega
  | binaryExpr op x y => simp [countNode, countNode_add]; omega
  | callExpr f args => simp [countNode, countNode_add, countList_add]; omega
  | funcLit cs => simp [countNode, countList_add]; omega
  | ident name => simp [countNode]
  | starExpr x => simp [countNode, countNode_add]; omega
  | exprOther cs => simp [countNode, countList_add]; omega

theorem countList_add (w1 w2 : Node → Nat) (ns : NodeList) :
    countList (fun m => w1 m + w2 m) ns = countList w1 ns + countList w2 ns := by
  cases ns with
  | nil => simp [countList]
  | cons n ns => simp [countList, countNode_add, countList_add]; omega

end

theorem visitWeight_split (n : Node) :
    visitWeight n = isIf n + isLoop n + isBranchArm n + isShortCircuit n := by
  cases n <;> simp [visitWeight, isIf, isLoop, isBranchArm, isShortCircuit]

theorem countList_visitWeight_split (ns : NodeList) :
    countList visitWeight ns =
      countList isIf ns + countList isLoop ns + countList isBranchArm ns
        + countList isShortCircuit ns := by
  have h1 : countList visitWeight ns
      = countList (fun m => isIf m + isLoop m + isBranchArm m + isShortCircuit m) ns := by
    have he : visitWeight = fun m => isIf m + isLoop m + isBranchArm m + isShortCircuit m :=
      funext visitWeight_split
    rw [he]
  have h2 : countList (fun m => isIf m + isLoop m + isBranchArm m + isShortCircuit m) ns
      = countList (fun m => isIf m + isLoop m + isBranchArm m) ns
        + countList isShortCircuit ns :=
    countList_add _ _ ns
  have h3 : countList (fun m => isIf m + isLoop m + isBranchArm m) ns
      = countList (fun m => isIf m + isLoop m) ns + countList isBranchArm ns :=
    countList_add _ _ ns
  have h4 : countList (fun m => isIf m + isLoop m) ns
      = countList isIf ns + countList isLoop ns :=
    countList_add _ _ ns
  omega

/-- C1: For every analyzed function or method declaration, `complexity`
returns exactly 1 + (count of `if` statements) + (count of `for` and `range`
loop statements) + (count of `switch` case arms and `select` communication
arms) + (count of `&&` and `||` binary operators) over the whole subtree
rooted at the declaration (receiver fields and body, including the bodies of
nested closures); no other node kind changes the count, so a function with
no decision points has complexity exactly 1. -/
theorem complexity_formula (fn : FuncDecl) :
    complexity fn =
      1 + declCount isIf fn + declCount isLoop fn + declCount isBranchArm fn
        + declCount isShortCircuit fn := by
  have h : complexity fn = 1 + declCount visitWeight fn := by
    simp [complexity, complexityRun, walkList_eq, declCount, Nat.add_assoc]
  rw [h, declCount, declCount, declCount, declCount, declCount,
    countList_visitWeight_split (recvNodes fn), countList_visitWeight_split fn.body]
  omega

/-- C8 (amended): the decision-point classifier starts from a fresh
zero-valued visitor on every invocation (so it carries no state between
invocations and its score is a pure function of the subtree), and its only
observable effect besides the returned score is the debug `fmt.Printf` that
writes the `Fun` operand of every call expression to stdout. -/
theorem classifier_effects (fn : FuncDecl) :
    complexityRun fn = ⟨1 + declCount visitWeight fn, declCollect fn⟩ := by
  simp [complexityRun, walkList_eq, declCount, declCollect, Nat.add_assoc]

/-- A function declaration whose body is the single call statement `g()`. -/
def fnWithCall : FuncDecl :=
  ⟨("f"), none, NodeList.cons (Node.callExpr (Node.ident ("g")) NodeList.nil) NodeList.nil,
    ("a.go:1:1"), ("a.go:3:2")⟩

/-- C8 (counterexample): the classifier is not free of observable side
effects — on a function whose body contains one call expression `g()`, the
`*ast.CallExpr` arm of `complexityVisitor.Visit` prints the call's `Fun`
operand to stdout, so the run's output trace is nonempty. -/
theorem classifier_prints_calls :
    complexityOut fnWithCall = [Node.ident ("g")] ∧ complexityOut fnWithCall ≠ [] := by
  have h1 : complexityOut fnWithCall = [Node.ident ("g")] := rfl
  refine ⟨h1, ?_⟩
  rw [h1]
  simp

/-- `recvString(recv)`: an `*ast.Ident` renders as its name, an
`*ast.StarExpr` as `"*"` followed by the recursive rendering of its operand,
and any other expression as the sentinel `"BADRECV"`. -/
def recvString : Node → String
  | Node.ident name => name
  | Node.starExpr x => "*" ++ recvString x
  | _ => "BADRECV"

/-- `funcName(fn)`: when `fn.Recv != nil` and `fn.Recv.NumFields() > 0`, the
first receiver field's type is rendered and the result is
`"(" + recvString(typ) + ")." + fn.Name`; otherwise the bare function name. -/
def funcName (fn : FuncDecl) : String :=
  match fn.recv with
  | some (NodeList.cons t _) => "(" ++ recvString t ++ ")." ++ fn.name
  | some NodeList.nil => fn.name
  | none => fn.name

/-- `n`-fold pointer wrapping of a receiver type expression. -/
def iterStar : Nat → Node → Node
  | 0, b => b
  | n + 1, b => Node.starExpr (iterStar n b)

/-- A string of `n` stars. -/
def stars : Nat → String
  | 0 => ""
  | n + 1 => "*" ++ stars n

theorem empty_append_str (t : String) : "" ++ t = t := by
  cases t with
  | mk d => rfl

/-- C6 (amended): a value receiver of named type `T` on method `M` renders
as `"(T).M"`, a pointer receiver `*T` as `"(*T).M"`, and a non-identifier,
non-pointer receiver shape as `"(BADRECV).M"`; a double-pointer receiver
`**T`, however, renders as `"(**T).M"` (the star case recurses), not as
`"(BADRECV).M"`. -/
theorem funcName_rendering (t m p1 p2 : String) (body cs : NodeList) :
    funcName ⟨m, some (NodeList.cons (Node.ident t) NodeList.nil), body, p1, p2⟩
        = "(" ++ t ++ ")." ++ m
    ∧ funcName ⟨m, some (NodeList.cons (Node.starExpr (Node.ident t)) NodeList.nil),
        body, p1, p2⟩ = "(" ++ "*" ++ t ++ ")." ++ m
    ∧ funcName ⟨m, some (NodeList.cons (Node.exprOther cs) NodeList.nil), body, p1, p2⟩
        = "(BADRECV)." ++ m
    ∧ funcName ⟨m, some (NodeList.cons (Node.starExpr (Node.starExpr (Node.ident t)))
        NodeList.nil), body, p1, p2⟩ = "(" ++ "*" ++ "*" ++ t ++ ")." ++ m := by
  refine ⟨rfl, ?_, rfl, ?_⟩
  · simp [funcName, recvString, ← String.append_assoc]
  · simp [funcName, recvString, ← String.append_assoc]

/-- A method on a double-pointer receiver `**T`. -/
def fnDoubleStar : FuncDecl :=
  ⟨("M"), some (NodeList.cons (Node.starExpr (Node.starExpr (Node.ident ("T"))))
    NodeList.nil), NodeList.nil, ("b.go:1:1"), ("b.go:2:2")⟩

/-- C6 (counterexample): a double-pointer receiver does not render as
`"(BADRECV).M"` — the method `M` on receiver `**T` is named `"(**T).M"`. -/
theorem double_pointer_recv :
    funcName fnDoubleStar = ("(**T).M") ∧ funcName fnDoubleStar ≠ ("(BADRECV).M") := by
  constructor
  · rfl
  · decide

/-- C7: the function-identifier component is total and pure by construction
(it is a terminating structural recursion); a free function maps to its own
identifier, and a pointer receiver renders as `"*"` followed by the
recursive rendering of the pointee at every finite pointer depth, bottoming
out at a named type or at the `BADRECV` sentinel. -/
theorem recvString_total_depth (n : Nat) (t m p1 p2 : String) (cs body : NodeList) :
    recvString (iterStar n (Node.ident t)) = stars n ++ t
    ∧ recvString (iterStar n (Node.exprOther cs)) = stars n ++ ("BADRECV")
    ∧ funcName ⟨m, none, body, p1, p2⟩ = m := by
  refine ⟨?_, ?_, rfl⟩
  · induction n with
    | zero => simp [iterStar, stars, recvString, empty_append_str]
    | succ k ih => rw [iterStar, stars, recvString, ih, String.append_assoc]
  · induction n with
    | zero => simp [iterStar, stars, recvString, empty_append_str]
    | succ k ih => rw [iterStar, stars, recvString, ih, String.append_assoc]

/-- C10: a declaration whose receiver field list is present but empty
(`fn.Recv != nil`, `fn.Recv.NumFields() == 0`) falls back to the bare
function name, the same rendering as a free function, rather than a
`BADRECV` name or a failure. -/
theorem empty_recv_list_bare_name (m p1 p2 : String) (body : NodeList) :
    funcName ⟨m, some NodeList.nil, body, p1, p2⟩ = m
    ∧ funcName ⟨m, some NodeList.nil, body, p1, p2⟩ = funcName ⟨m, none, body, p1, p2⟩ :=
  ⟨rfl, rfl⟩

/-- One complexity record (`type BasicBlock` in the source): package name,
rendered function name, complexity, rendered start and end positions, and
the run-wide ID.  Go's `int` fields are `Int` (`Complexity`) and `Nat`
(`ID`, which only ever holds counter values). -/
structure BasicBlock where
  PkgName : String
  FuncName : String
  Complexity : Int
  Pos : String
  EndPos : String
  ID : Nat
  deriving DecidableEq

/-- `byComplexity.Less(i, j)` from the source:
`s[i].Complexity >= s[j].Complexity`.  Note this is not a strict ordering —
it holds in both directions on equal complexities. -/
def byComplexityLess (a b : BasicBlock) : Prop :=
  a.Complexity ≥ b.Complexity

instance : DecidableRel byComplexityLess :=
  fun a b => inferInstanceAs (Decidable (a.Complexity ≥ b.Complexity))

instance : IsTotal BasicBlock byComplexityLess :=
  ⟨fun a b => le_total b.Complexity a.Complexity⟩

instance : IsTrans BasicBlock byComplexityLess :=
  ⟨fun _ _ _ h1 h2 => le_trans h2 h1⟩

/-- One step of the insertion sort that Go's `sort.Sort` runs on slices of
fewer than twelve elements (`insertionSort` in `sort.go`, reached through
`pdqsort` for every slice this short): the new element bubbles left past
every element `y` with `Less(x, y)`, i.e. it comes to rest immediately
before the leftmost element whose complexity is less than or equal to its
own.  Inserting into the already-sorted prefix from the left lands the
element in exactly that position. -/
def insertGo (x : BasicBlock) : List BasicBlock → List BasicBlock
  | [] => [x]
  | y :: ys => if byComplexityLess x y then x :: y :: ys else y :: insertGo x ys

/-- `sort.Sort(byComplexity(BasicBlocks))`, modelled by the insertion-sort
path of Go's unstable `sort.Sort` (exact for fewer than twelve records):
each element of the slice, left to right, is inserted into the sorted
prefix. -/
def sortGo (l : List BasicBlock) : List BasicBlock :=
  l.foldl (fun acc x => insertGo x acc) []

theorem insertGo_eq_orderedInsert (x : BasicBlock) (l : List BasicBlock) :
    insertGo x l = List.orderedInsert byComplexityLess x l := by
  induction l with
  | nil => rfl
  | cons y ys ih => simp only [insertGo, List.orderedInsert, ih]

theorem insertGo_sorted (x : BasicBlock) (l : List BasicBlock)
    (h : List.Sorted byComplexityLess l) :
    List.Sorted byComplexityLess (insertGo x l) := by
  rw [insertGo_eq_orderedInsert]
  exact h.orderedInsert x l

theorem insertGo_perm (x : BasicBlock) (l : List BasicBlock) :
    List.Perm (insertGo x l) (x :: l) := by
  rw [insertGo_eq_orderedInsert]
  exact List.perm_orderedInsert _ x l

theorem sortGo_foldl_sorted (l acc : List BasicBlock)
    (h : List.Sorted byComplexityLess acc) :
    List.Sorted byComplexityLess (List.foldl (fun a x => insertGo x a) acc l) := by
  induction l generalizing acc with
  | nil => exact h
  | cons x xs ih => exact ih (insertGo x acc) (insertGo_sorted x acc h)

theorem sortGo_foldl_perm (l acc : List BasicBlock) :
    List.Perm (List.foldl (fun a x => insertGo x a) acc l) (l ++ acc) := by
  induction l generalizing acc with
  | nil => simp
  | cons x xs ih =>
      simp only [List.foldl_cons, List.cons_append]
      refine (ih (insertGo x acc)).trans ?_
      refine (List.Perm.append_left xs (insertGo_perm x acc)).trans ?_
      exact List.perm_middle

theorem filter_insertGo (c : Int) (x : BasicBlock) (l : List BasicBlock) :
    (insertGo x l).filter (fun r => r.Complexity == c)
      = if x.Complexity = c then x :: l.filter (fun r => r.Complexity == c)
        else l.filter (fun r => r.Complexity == c) := by
  induction l with
  | nil => by_cases h : x.Complexity = c <;> simp [insertGo, List.filter_cons, h, beq_iff_eq]
  | cons y ys ih =>
      by_cases hle : byComplexityLess x y
      · by_cases h : x.Complexity = c <;>
          simp [insertGo, hle, List.filter_cons, h, beq_iff_eq]
      · have hlt : x.Complexity < y.Complexity := by
          simpa [byComplexityLess] using hle
        by_cases h : x.Complexity = c
        · have hy : ¬ y.Complexity = c := by omega
          simp [insertGo, hle, List.filter_cons, ih, h, hy, beq_iff_eq]
        · simp [insertGo, hle, List.filter_cons, ih, h, beq_iff_eq]

theorem filter_sortGo_foldl (c : Int) (l acc : List BasicBlock) :
    (List.foldl (fun a x => insertGo x a) acc l).filter (fun r => r.Complexity == c)
      = (l.filter (fun r => r.Complexity == c)).reverse
        ++ acc.filter (fun r => r.Complexity == c) := by
  induction l generalizing acc with
  | nil => simp
  | cons x xs ih =>
      simp only [List.foldl_cons, ih (insertGo x acc), filter_insertGo, List.filter_cons]
      by_cases h : x.Complexity = c <;> simp [h]

/-- C2 (amended): the sorted record sequence is non-increasing in
complexity and is a permutation of the input; but the sort is not stable —
on the insertion-sort path that Go's `sort.Sort` takes for these slices,
records of equal complexity end up in *reversed* discovery order, because
`byComplexity.Less` is the non-strict `>=` and every element bubbles past
its equals. -/
theorem sortGo_spec (l : List BasicBlock) :
    List.Pairwise (fun a b => b.Complexity ≤ a.Complexity) (sortGo l)
    ∧ List.Perm (sortGo l) l
    ∧ ∀ c : Int, (sortGo l).filter (fun r => r.Complexity == c)
        = (l.filter (fun r => r.Complexity == c)).reverse := by
  refine ⟨?_, ?_, ?_⟩
  · have h := sortGo_foldl_sorted l [] (List.sorted_nil)
    simpa [sortGo, List.Sorted, byComplexityLess, ge_iff_le] using h
  · have h := sortGo_foldl_perm l []
    simpa [sortGo] using h
  · intro c
    have h := filter_sortGo_foldl c l []
    simpa [sortGo] using h

/-- First-discovered record of complexity 1. -/
def bbFirst : BasicBlock :=
  ⟨("p"), ("A"), 1, ("a.go:1:1"), ("a.go:2:2"), 1⟩

/-- Second-discovered record of complexity 1. -/
def bbSecond : BasicBlock :=
  ⟨("p"), ("B"), 1, ("a.go:3:1"), ("a.go:4:2"), 2⟩

/-- C2 (counterexample): the sort is not stable.  Two records of equal
complexity, discovered in the order `bbFirst, bbSecond`, come out of the
sort in the order `bbSecond, bbFirst` — their relative order is not the
discovery order. -/
theorem sortGo_not_stable :
    sortGo [bbFirst, bbSecond] = [bbSecond, bbFirst]
    ∧ bbFirst.Complexity = bbSecond.Complexity
    ∧ bbFirst ≠ bbSecond := by
  refine ⟨?_, rfl, by decide⟩
  rfl

/-- The loop of `writeBasicBlocks(w, sortedBasicBlocks)`, carrying the
running index `i`: `if i == *top { return i }`,
`if BasicBlock.Complexity <= *over { return i }`, otherwise print the record
and continue.  The result is the pair (records printed, value returned);
when the loop runs off the end the function returns
`len(sortedBasicBlocks)`, which at that point equals the carried index. -/
def writeLoop (top over : Int) : Nat → List BasicBlock → List BasicBlock × Nat
  | i, [] => ([], i)
  | i, r :: rs =>
      if (i : Int) = top then ([], i)
      else if r.Complexity ≤ over then ([], i)
      else
        let rest := writeLoop top over (i + 1) rs
        (r :: rest.1, rest.2)

/-- `writeBasicBlocks` applied to the sorted slice, from index 0 with the
configured `-top` and `-over` values. -/
def writeBasicBlocks (top over : Int) (l : List BasicBlock) : List BasicBlock × Nat :=
  writeLoop top over 0 l

theorem writeLoop_ret (top over : Int) (l : List BasicBlock) (i : Nat) :
    (writeLoop top over i l).2 = i + (writeLoop top over i l).1.length := by
  induction l generalizing i with
  | nil => simp [writeLoop]
  | cons r rs ih =>
      by_cases h1 : (i : Int) = top
      · simp [writeLoop, h1]
      · by_cases h2 : r.Complexity ≤ over
        · simp [writeLoop, h1, h2]
        · simp only [writeLoop, h1, h2, if_false, List.length_cons]
          rw [ih (i + 1)]
          omega

theorem writeLoop_take (top over : Int) (l : List BasicBlock) (i : Nat) :
    ∃ k, (writeLoop top over i l).1 = l.take k := by
  induction l generalizing i with
  | nil => exact ⟨0, by simp [writeLoop]⟩
  | cons r rs ih =>
      by_cases h1 : (i : Int) = top
      · exact ⟨0, by simp [writeLoop, h1]⟩
      · by_cases h2 : r.Complexity ≤ over
        · exact ⟨0, by simp [writeLoop, h1, h2]⟩
        · obtain ⟨k, hk⟩ := ih (i + 1)
          exact ⟨k + 1, by simp [writeLoop, h1, h2, List.take_succ_cons, hk]⟩

theorem writeLoop_over (top over : Int) (l : List BasicBlock) (i : Nat) :
    ∀ r ∈ (writeLoop top over i l).1, over < r.Complexity := by
  induction l generalizing i with
  | nil => simp [writeLoop]
  | cons r rs ih =>
      by_cases h1 : (i : Int) = top
      · simp [writeLoop, h1]
      · by_cases h2 : r.Complexity ≤ over
        · simp [writeLoop, h1, h2]
        · intro x hx
          simp only [writeLoop, h1, h2, if_false, List.mem_cons] at hx
          rcases hx with hx | hx
          · subst hx
            omega
          · exact ih (i + 1) x hx

theorem writeLoop_top_bound (top over : Int) (l : List BasicBlock) (i : Nat)
    (hi : (i : Int) ≤ top) :
    ((writeLoop top over i l).1.length : Int) ≤ top - i := by
  induction l generalizing i with
  | nil =>
      simp [writeLoop]
      omega
  | cons r rs ih =>
      by_cases h1 : (i : Int) = top
      · simp [writeLoop, h1]
      · by_cases h2 : r.Complexity ≤ over
        · simp [writeLoop, h1, h2]
          omega
        · have hi1 : ((i + 1 : Nat) : Int) ≤ top := by push_cast; omega
          have := ih (i + 1) hi1
          simp only [writeLoop, h1, h2, if_false, List.length_cons]
          push_cast at this ⊢
          omega

theorem writeLoop_unbounded (top over : Int) (l : List BasicBlock) (i : Nat)
    (htop : top < 0) :
    (writeLoop top over i l).1 = l.takeWhile (fun r => over < r.Complexity) := by
  induction l generalizing i with
  | nil => simp [writeLoop]
  | cons r rs ih =>
      have h1 : ¬ ((i : Int) = top) := by omega
      by_cases h2 : r.Complexity ≤ over
      · have : ¬ (over < r.Complexity) := by omega
        simp [writeLoop, h1, h2, List.takeWhile_cons, this]
      · have : over < r.Complexity := by omega
        simp [writeLoop, h1, h2, List.takeWhile_cons, this, ih (i + 1)]

/-- C3: the report writer walks the sorted sequence in order, emitting
records and stopping as soon as either `topN` records have been emitted or
the next record's complexity is `≤ minComplexity`, whichever triggers
first; it returns the number of records emitted; consequently every emitted
record has complexity strictly greater than `minComplexity` (`-over`), the
emitted records are an order-preserving front segment of the input, the
emitted count never exceeds a non-negative `topN` (`-top`), and a negative
`topN` — the flag's default is `-1` — means unbounded, in which case the
writer emits exactly the maximal front segment of records above the
threshold. -/
theorem writeBasicBlocks_spec (top over : Int) (l : List BasicBlock) :
    (writeBasicBlocks top over l).2 = (writeBasicBlocks top over l).1.length
    ∧ (∃ k, (writeBasicBlocks top over l).1 = l.take k)
    ∧ (∀ r ∈ (writeBasicBlocks top over l).1, over < r.Complexity)
    ∧ (if 0 ≤ top then ((writeBasicBlocks top over l).1.length : Int) ≤ top
       else (writeBasicBlocks top over l).1
          = l.takeWhile (fun r => over < r.Complexity)) := by
  refine ⟨?_, writeLoop_take top over l 0, writeLoop_over top over l 0, ?_⟩
  · have h := writeLoop_ret top over l 0
    simpa [writeBasicBlocks] using h
  · by_cases htop : 0 ≤ top
    · have h := writeLoop_top_bound top over l 0 (by omega)
      simp only [htop, if_true, writeBasicBlocks]
      omega
    · have h := writeLoop_unbounded top over l 0 (by omega)
      simp only [htop, if_false, writeBasicBlocks]
      exact h

/-- A record with complexity 5 (above a threshold of 2). -/
def bbHigh : BasicBlock :=
  ⟨("p"), ("Big"), 5, ("c.go:1:1"), ("c.go:9:2"), 1⟩

/-- A record with complexity 2 (at the threshold). -/
def bbLow : BasicBlock :=
  ⟨("p"), ("Small"), 2, ("c.go:10:1"), ("c.go:12:2"), 2⟩

/-- C3 (witness): instantiating the report-writer theorem on the concrete
run with `-over 2` and default `-top -1` on records of complexities 5 and 2:
the record of complexity 5 is in the emitted set and the threshold bound
holds for it. -/
theorem writeBasicBlocks_spec_witness : (2 : Int) < bbHigh.Complexity :=
  (writeBasicBlocks_spec (-1) 2 [bbHigh, bbLow]).2.2.1 bbHigh (by decide)

/-- One top-level declaration of a parsed file: either a function/method
declaration (the `*ast.FuncDecl` case of the type switch in
`buildBasicBlocks`) or any other declaration kind, which is skipped. -/
inductive Decl where
  | funcDecl (fn : FuncDecl)
  | genDecl

/-- A parsed file (`*ast.File`): its package name and its top-level
declarations in source order. -/
structure GoFile where
  pkgName : String
  decls : List Decl

/-- The record literal appended by `buildBasicBlocks` for one function
declaration, with the current value of the shared counter as its ID. -/
def mkBasicBlock (pkg : String) (fn : FuncDecl) (id : Nat) : BasicBlock :=
  ⟨pkg, funcName fn, (complexity fn : Int), fn.pos, fn.endPos, id⟩

/-- `buildBasicBlocks(f, fset, BasicBlocks, counterMutex)`: for each
declaration of the file, in order, if it is a function declaration, append
a record carrying the current counter value and increment the counter (the
source guards the append and the `count++` with `counterMutex`; the driver
`analyze` is sequential, so the lock only serialises what is modelled here
as explicit state passing). -/
def buildBasicBlocks (f : GoFile) (acc : List BasicBlock) (count : Nat) :
    List BasicBlock × Nat :=
  f.decls.foldl
    (fun st d =>
      match d with
      | Decl.funcDecl fn => (st.1 ++ [mkBasicBlock f.pkgName fn st.2], st.2 + 1)
      | Decl.genDecl => st)
    (acc, count)

/-- `analyze(paths, counterMutex)` in the all-files-parse case: fold
`buildBasicBlocks` over the discovered files with the shared counter, which
`var count = 1` initialises to 1 for the run. -/
def analyzeFiles (files : List GoFile) : List BasicBlock × Nat :=
  files.foldl (fun st f => buildBasicBlocks f st.1 st.2) ([], 1)

/-- The function declarations of a file, in declaration order. -/
def funcDeclsOf (f : GoFile) : List FuncDecl :=
  f.decls.filterMap (fun d =>
    match d with
    | Decl.funcDecl fn => some fn
    | Decl.genDecl => none)

/-- Total number of function declarations across all files. -/
def totalFuncs (files : List GoFile) : Nat :=
  (files.map (fun f => (funcDeclsOf f).length)).sum

/-- The records one file's function declarations produce when the counter
starts at `c` (spec-side reference construction). -/
def recordsFrom (pkg : String) (fns : List FuncDecl) (c : Nat) : List BasicBlock :=
  match fns with
  | [] => []
  | fn :: rest => mkBasicBlock pkg fn c :: recordsFrom pkg rest (c + 1)

/-- The records a run over `files` produces when the counter starts at `c`
(spec-side reference construction). -/
def recordsOfFiles (files : List GoFile) (c : Nat) : List BasicBlock :=
  match files with
  | [] => []
  | f :: fs =>
      recordsFrom f.pkgName (funcDeclsOf f) c
        ++ recordsOfFiles fs (c + (funcDeclsOf f).length)

/-- The (package, rendered name) pairs of all function declarations, file by
file, in declaration order. -/
def declaredSigs (files : List GoFile) : List (String × String) :=
  match files with
  | [] => []
  | f :: fs => (funcDeclsOf f).map (fun fn => (f.pkgName, funcName fn)) ++ declaredSigs fs

theorem buildBasicBlocks_foldl (pkg : String) (ds : List Decl) (acc : List BasicBlock)
    (c : Nat) :
    ds.foldl
      (fun st d =>
        match d with
        | Decl.funcDecl fn => (st.1 ++ [mkBasicBlock pkg fn st.2], st.2 + 1)
        | Decl.genDecl => st)
      (acc, c)
      = (acc ++ recordsFrom pkg
          (ds.filterMap (fun d =>
            match d with
            | Decl.funcDecl fn => some fn
            | Decl.genDecl => none)) c,
        c + (ds.filterMap (fun d =>
            match d with
            | Decl.funcDecl fn => some fn
            | Decl.genDecl => none)).length) := by
  induction ds generalizing acc c with
  | nil => simp [recordsFrom]
  | cons d ds ih =>
      cases d with
      | funcDecl fn =>
          simp only [List.foldl_cons, List.filterMap_cons, ih, recordsFrom,
            List.length_cons, Prod.mk.injEq]
          refine ⟨by simp [List.append_assoc], by omega⟩
      | genDecl => simp only [List.foldl_cons, List.filterMap_cons, ih]

theorem buildBasicBlocks_eq (f : GoFile) (acc : List BasicBlock) (c : Nat) :
    buildBasicBlocks f acc c
      = (acc ++ recordsFrom f.pkgName (funcDeclsOf f) c, c + (funcDeclsOf f).length) :=
  buildBasicBlocks_foldl f.pkgName f.decls acc c

theorem analyzeFiles_foldl (files : List GoFile) (acc : List BasicBlock) (c : Nat) :
    files.foldl (fun st f => buildBasicBlocks f st.1 st.2) (acc, c)
      = (acc ++ recordsOfFiles files c, c + totalFuncs files) := by
  induction files generalizing acc c with
  | nil => simp [recordsOfFiles, totalFuncs]
  | cons f fs ih =>
      rw [List.foldl_cons, buildBasicBlocks_eq, ih]
      simp only [recordsOfFiles, totalFuncs, List.map_cons, List.sum_cons, Prod.mk.injEq]
      refine ⟨by simp [List.append_assoc], by omega⟩

theorem recordsFrom_ids (pkg : String) (fns : List FuncDecl) (c : Nat) :
    (recordsFrom pkg fns c).map (fun r => r.ID) = List.range' c fns.length := by
  induction fns generalizing c with
  | nil => simp [recordsFrom]
  | cons fn rest ih =>
      simp [recordsFrom, List.range'_succ, mkBasicBlock, ih]

theorem range'_glue (s m n : Nat) : List.range' s m ++ List.range' (s + m) n
    = List.range' s (m + n) := by
  rw [List.range'_append_1, Nat.add_comm]

theorem recordsOfFiles_ids (files : List GoFile) (c : Nat) :
    (recordsOfFiles files c).map (fun r => r.ID) = List.range' c (totalFuncs files) := by
  induction files generalizing c with
  | nil => simp [recordsOfFiles, totalFuncs]
  | cons f fs ih =>
      simp only [recordsOfFiles, totalFuncs, List.map_cons, List.sum_cons, List.map_append,
        recordsFrom_ids, ih]
      exact range'_glue c (funcDeclsOf f).length (totalFuncs fs)

theorem recordsFrom_sigs (pkg : String) (fns : List FuncDecl) (c : Nat) :
    (recordsFrom pkg fns c).map (fun r => (r.PkgName, r.FuncName))
      = fns.map (fun fn => (pkg, funcName fn)) := by
  induction fns generalizing c with
  | nil => simp [recordsFrom]
  | cons fn rest ih => simp [recordsFrom, mkBasicBlock, ih]

theorem recordsOfFiles_sigs (files : List GoFile) (c : Nat) :
    (recordsOfFiles files c).map (fun r => (r.PkgName, r.FuncName)) = declaredSigs files := by
  induction files generalizing c with
  | nil => simp [recordsOfFiles, declaredSigs]
  | cons f fs ih =>
      simp [recordsOfFiles, declaredSigs, recordsFrom_sigs, ih]

/-- C5: for a run over any list of files with `N` function declarations in
total, the assigned IDs are exactly `1, 2, …, N` in record-creation order —
the shared counter starts at 1, IDs strictly increase across all files with
no duplicate, gap, reuse or reassignment, and the counter ends at `N + 1`;
within one file the records appear in source declaration order (the
projection to (package, function name) pairs equals the file-by-file
declaration-order listing). -/
theorem id_assignment (files : List GoFile) :
    ((analyzeFiles files).1.map (fun r => r.ID)) = List.range' 1 (totalFuncs files)
    ∧ (analyzeFiles files).2 = 1 + totalFuncs files
    ∧ ((analyzeFiles files).1.map (fun r => (r.PkgName, r.FuncName))) = declaredSigs files := by
  have h : analyzeFiles files = (recordsOfFiles files 1, 1 + totalFuncs files) := by
    have := analyzeFiles_foldl files [] 1
    simpa [analyzeFiles] using this
  rw [h]
  exact ⟨recordsOfFiles_ids files 1, rfl, recordsOfFiles_sigs files 1⟩

/-- The outcome of `parser.ParseFile` on one discovered input file: either
the parsed file, or the parse error (whose message, produced by the Go
parser, carries the offending file name and position). -/
inductive ParseResult where
  | ok (file : GoFile)
  | err (msg : String)

/-- The configuration read from the flags: `-over` (default 0), `-top`
(default -1), `-avg` (default false). -/
structure Config where
  over : Int
  top : Int
  avg : Bool

/-- The flag defaults of the source. -/
def defaultConfig : Config :=
  ⟨0, -1, false⟩

/-- `analyze` over the discovered inputs with the fail-fast behaviour of
`analyzeFile`: a parse error triggers `log.Fatal(err)`, which aborts the
whole run at that point (results accumulated so far are discarded, nothing
having been printed yet). -/
def analyzeAll : List ParseResult → List BasicBlock → Nat →
    Except String (List BasicBlock × Nat)
  | [], acc, c => Except.ok (acc, c)
  | ParseResult.ok f :: rest, acc, c =>
      let st := buildBasicBlocks f acc c
      analyzeAll rest st.1 st.2
  | ParseResult.err m :: _, _, _ => Except.error m

/-- `total` in `average`: the sum of all complexities. -/
def totalComplexity (l : List BasicBlock) : Int :=
  (l.map (fun r => r.Complexity)).sum

/-- `average(BasicBlocks)` —
`float64(total) / float64(len(BasicBlocks))`, modelled over `ℚ`.  There is
no empty-case branch in the source: on an empty slice Go performs `0.0/0.0`
and yields IEEE `NaN` (printed as `Average: NaN`); in the rational model
the division by zero yields `0`.  Either way, a value is produced and
reported with no special handling. -/
def average (l : List BasicBlock) : ℚ :=
  (totalComplexity l : ℚ) / (l.length : ℚ)

/-- The observable outcome of `main`: the process exit status, the records
printed by `writeBasicBlocks`, the returned `written` count, the optional
`Average:` line, and the optional fatal-error line of `log.Fatal`. -/
structure RunResult where
  exitCode : Nat
  emitted : List BasicBlock
  written : Nat
  avgOut : Option ℚ
  fatalOut : Option String

/-- `main`: with no arguments, `usage()` prints the usage text and exits
with status 2.  Otherwise the inputs are analyzed (a parse failure hits
`log.Fatal`, which prints the parser's message and exits with status 1 —
Go's `log.Fatal` is `Print` followed by `os.Exit(1)`).  The records are
then sorted in place, written subject to `-top` and `-over`, the average
over the (sorted, hence all) records is printed when `-avg` is set, and the
process exits 1 when `*over > 0 && written > 0`, else 0. -/
def runMain (cfg : Config) (args : List ParseResult) : RunResult :=
  if args.isEmpty then ⟨2, [], 0, none, none⟩
  else
    match analyzeAll args [] 1 with
    | Except.error m => ⟨1, [], 0, none, some m⟩
    | Except.ok (records, _) =>
        let sorted := sortGo records
        let w := writeBasicBlocks cfg.top cfg.over sorted
        ⟨if 0 < cfg.over ∧ 0 < w.2 then 1 else 0, w.1, w.2,
          if cfg.avg then some (average sorted) else none, none⟩

/-- The first parse error among the discovered inputs, in discovery order
(spec-side scanner). -/
def firstParseError : List ParseResult → Option String
  | [] => none
  | ParseResult.ok _ :: rest => firstParseError rest
  | ParseResult.err m :: _ => some m

/-- All records of a run whose inputs all parse (spec-side accessor). -/
def allRecords (args : List ParseResult) : List BasicBlock :=
  match analyzeAll args [] 1 with
  | Except.ok (records, _) => records
  | Except.error _ => []

theorem analyzeAll_error (args : List ParseResult) (acc : List BasicBlock) (c : Nat) :
    (match analyzeAll args acc c with
     | Except.error m => firstParseError args = some m
     | Except.ok _ => firstParseError args = none) := by
  induction args generalizing acc c with
  | nil => simp [analyzeAll, firstParseError]
  | cons a rest ih =>
      cases a with
      | ok f =>
          have h := ih (buildBasicBlocks f acc c).1 (buildBasicBlocks f acc c).2
          simp only [analyzeAll, firstParseError]
          exact h
      | err m => simp [analyzeAll, firstParseError]

/-- C9 (amended): the process exit status is 2 exactly for the usage error
(no input paths given, nothing analyzed or printed); it is 1 for a fatal
parse failure — not 2 — because `log.Fatal` exits with status 1 after
printing the parser's message (which identifies the offending file), the
run aborting with no records emitted; and in a run whose inputs all parse
it is 1 when `minComplexity > 0` and at least one record was emitted, else
0. -/
theorem exit_code_spec (cfg : Config) (args : List ParseResult) :
    if args.isEmpty then
      (runMain cfg args).exitCode = 2 ∧ (runMain cfg args).emitted = []
        ∧ (runMain cfg args).fatalOut = none
    else
      match firstParseError args with
      | some m =>
          (runMain cfg args).exitCode = 1 ∧ (runMain cfg args).emitted = []
            ∧ (runMain cfg args).fatalOut = some m
      | none =>
          ((runMain cfg args).exitCode
              = if 0 < cfg.over ∧ 0 < (runMain cfg args).written then 1 else 0)
            ∧ (runMain cfg args).fatalOut = none := by
  have hF := analyzeAll_error args [] 1
  by_cases he : args.isEmpty
  · simp [runMain, he]
  · cases hA : analyzeAll args [] 1 with
    | error m =>
        rw [hA] at hF
        simp [he, hF, runMain, hA]
    | ok p =>
        obtain ⟨records, cnt⟩ := p
        rw [hA] at hF
        simp [he, hF, runMain, hA]

/-- C9 (counterexample): a run over a single input that fails to parse
exits with status 1, not with the status 2 the claim asserts for fatal
parse failures. -/
theorem parse_failure_exit_one :
    (runMain defaultConfig [ParseResult.err ("bad.go:1:1: expected declaration")]).exitCode = 1
    ∧ (runMain defaultConfig
        [ParseResult.err ("bad.go:1:1: expected declaration")]).exitCode ≠ 2 := by
  have h1 : (runMain defaultConfig
      [ParseResult.err ("bad.go:1:1: expected declaration")]).exitCode = 1 := rfl
  refine ⟨h1, ?_⟩
  rw [h1]
  decide

theorem sortGo_perm (l : List BasicBlock) : List.Perm (sortGo l) l := by
  have h := sortGo_foldl_perm l []
  simpa [sortGo] using h

theorem average_perm (l1 l2 : List BasicBlock) (h : List.Perm l1 l2) :
    average l1 = average l2 := by
  have hs : (l1.map (fun r => r.Complexity)).sum = (l2.map (fun r => r.Complexity)).sum :=
    (h.map (fun r => r.Complexity)).sum_eq
  have hl : l1.length = l2.length := h.length_eq
  simp [average, totalComplexity, hs, hl]

/-- C4 (amended): when `showAverage` is set (and the run reaches the
reporting stage), the reported average is the arithmetic mean of complexity
over *all* analyzed records — the value is independent of the `-top` and
`-over` filters, which do not appear in it; however the zero-record case is
not handled: the division is performed unconditionally (IEEE `0/0 = NaN` in
Go, 0 in the rational model) instead of reporting a "no data" message. -/
theorem average_over_all (cfg : Config) (args : List ParseResult) :
    (runMain cfg args).avgOut =
      if args.isEmpty || (firstParseError args).isSome || !cfg.avg then none
      else some (average (allRecords args)) := by
  have hF := analyzeAll_error args [] 1
  by_cases he : args.isEmpty
  · simp [runMain, he]
  · cases hA : analyzeAll args [] 1 with
    | error m =>
        rw [hA] at hF
        simp [he, hF, runMain, hA]
    | ok p =>
        obtain ⟨records, cnt⟩ := p
        rw [hA] at hF
        by_cases hv : cfg.avg
        · have hav : average (sortGo records) = average records :=
            average_perm _ _ (sortGo_perm records)
          simp [he, hF, runMain, hA, hv, allRecords, hav]
        · simp [he, hF, runMain, hA, hv]

/-- A file that parses but declares no functions. -/
def emptyFile : GoFile :=
  ⟨("p"), []⟩

/-- The flag configuration `-avg` with everything else at its default. -/
def cfgAvg : Config :=
  ⟨0, -1, true⟩

/-- C4 (counterexample): on a run with `-avg` whose single input file
contains zero function declarations, the average is still computed and
reported — no empty-case branch exists — and its value is the raw result of
dividing by the zero length (0 in the rational model; Go's float64 yields
`NaN` and prints `Average: NaN`), contradicting the claim that the empty
case is handled explicitly. -/
theorem average_empty_reported :
    (runMain cfgAvg [ParseResult.ok emptyFile]).avgOut = some (average [])
    ∧ average [] = 0 := by
  refine ⟨rfl, ?_⟩
  simp [average, totalComplexity]

end Log20
